import Mathlib

/-!
# Verification of the loc-counter core

Shallow embedding of `src/loc-counter.ts`: the per-line comment classifier
(`analyzeTextLines`), file analysis (`analyzeFile`), directory traversal
(`walkDir`) and aggregation (`run`), together with theorems checking the
natural-language specification against this embedding.

Lines are modelled as `List Char`; file-system paths as `List String`
(segments); JavaScript string operations (`trim`, `indexOf`, `slice`,
`startsWith`, `replace(/\t/g, '    ')`, `split(/\r\n|\n|\r/)`,
`path.extname`) are given explicit recursive definitions below.
-/

namespace LocCounter

/-- JS `line.replace(/\t/g, '    ')` (loc-counter.ts line 185). -/
def tabExpand (l : List Char) : List Char :=
  l.foldr (fun ch acc => (if ch = '\t' then [' ', ' ', ' ', ' '] else [ch]) ++ acc) []

/-- JS `String.prototype.trim` on a list of characters. -/
def trimC (l : List Char) : List Char :=
  ((l.dropWhile Char.isWhitespace).reverse.dropWhile Char.isWhitespace).reverse

/-- JS `str.indexOf(pat)`: index of the first occurrence of `pat`, if any. -/
def indexOfSub (pat : List Char) : List Char → Option Nat
  | [] => if List.isPrefixOf pat ([] : List Char) then some 0 else none
  | ch :: t =>
    if List.isPrefixOf pat (ch :: t) then some 0
    else Option.map (· + 1) (indexOfSub pat t)

/-- JS `str.indexOf(pat, i)`: first occurrence of `pat` at or after index `i`. -/
def indexOfSubFrom (pat : List Char) (l : List Char) (i : Nat) : Option Nat :=
  Option.map (· + i) (indexOfSub pat (l.drop i))

/-- The block-comment kind: `blockType` in `analyzeTextLines` (`'c' | 'html' | null`,
modelled with `Option BType`). -/
inductive BType where
  | c
  | html
deriving DecidableEq, Repr

/-- The classifier state carried across lines of one file:
`withinBlock : bool` and `blockType` (loc-counter.ts lines 181-182). -/
structure BState where
  within : Bool
  btype : Option BType
deriving DecidableEq, Repr

/-- Classification of a single line. -/
inductive LineClass where
  | blank
  | commentOnly
  | code
deriving DecidableEq, Repr

/-- `isCStyle` (loc-counter.ts lines 144-147). -/
def isCStyle (ext : String) : Bool :=
  List.contains ["ts", "tsx", "js", "jsx", "css", "scss", "sass", "less"] ext

/-- `isHtmlLike` (loc-counter.ts lines 149-151). -/
def isHtmlLike (ext : String) : Bool :=
  ext == "html" || ext == "vue"

/-- The "not inside a block comment" part of the per-line loop of
`analyzeTextLines` (loc-counter.ts lines 235-282), acting on the trimmed line. -/
def classifyRest (ext : String) (st : BState) (trimmed : List Char) :
    LineClass × BState :=
  if isCStyle ext then
    if List.isPrefixOf ['/', '/'] trimmed then (.commentOnly, st)
    else
      match indexOfSub ['/', '*'] trimmed with
      | some sIdx =>
        let eIdx := indexOfSubFrom ['*', '/'] trimmed (sIdx + 2)
        if sIdx = 0 then
          match eIdx with
          | none => (.commentOnly, ⟨true, some .c⟩)
          | some e =>
            if trimC (trimmed.drop (e + 2)) = [] then (.commentOnly, st)
            else (.code, st)
        else (.code, st)
      | none => (.code, st)
  else if isHtmlLike ext then
    if List.isPrefixOf ['<', '!', '-', '-'] trimmed then
      match indexOfSub ['-', '-', '>'] trimmed with
      | none => (.commentOnly, ⟨true, some .html⟩)
      | some e =>
        if trimC (trimmed.drop (e + 3)) = [] then (.commentOnly, st)
        else (.code, st)
    else (.code, st)
  else (.code, st)

/-- One iteration of the per-line loop of `analyzeTextLines`
(loc-counter.ts lines 184-283), returning the classification of the line and
the updated block state.  When `withinBlock` is set but `blockType` is `null`
(a combination the loop never produces), the source falls through to the
not-inside-block section, which is reproduced here. -/
def classifyLine (ext : String) (detect : Bool) (st : BState) (raw : List Char) :
    LineClass × BState :=
  let trimmed := trimC (tabExpand raw)
  if trimmed = [] then (.blank, st)
  else if !detect then (.code, st)
  else if st.within then
    match st.btype with
    | some .c =>
      match indexOfSub ['*', '/'] trimmed with
      | none => (.commentOnly, st)
      | some endIdx =>
        if trimC (trimmed.drop (endIdx + 2)) = [] then (.commentOnly, ⟨false, none⟩)
        else (.code, ⟨false, none⟩)
    | some .html =>
      match indexOfSub ['-', '-', '>'] trimmed with
      | none => (.commentOnly, st)
      | some endIdx =>
        if trimC (trimmed.drop (endIdx + 3)) = [] then (.commentOnly, ⟨false, none⟩)
        else (.code, ⟨false, none⟩)
    | none => classifyRest ext st trimmed
  else classifyRest ext st trimmed

/-- The counter-accumulating loop of `analyzeTextLines`: threads
`nonEmpty`, `commentOnly` and the block state through the lines. -/
def analyzeLoop (ext : String) (detect : Bool) :
    List (List Char) → Nat → Nat → BState → Nat × Nat
  | [], ne, co, _ => (ne, co)
  | raw :: rest, ne, co, st =>
    match classifyLine ext detect st raw with
    | (cls, st') =>
      analyzeLoop ext detect rest (ne + (if cls = .blank then 0 else 1))
        (co + (if cls = .commentOnly then 1 else 0)) st'

/-- The three per-file counters. -/
structure Counts where
  total : Nat
  nonEmpty : Nat
  commentOnly : Nat
deriving DecidableEq, Repr

/-- `analyzeTextLines` (loc-counter.ts lines 176-286). -/
def analyzeTextLines (lines : List (List Char)) (ext : String) (detect : Bool) :
    Counts :=
  let p := analyzeLoop ext detect lines 0 0 ⟨false, none⟩
  ⟨lines.length, p.1, p.2⟩

/-- The per-line classifications produced by the loop of `analyzeTextLines`,
starting from block state `st`. -/
def lineClasses (ext : String) (detect : Bool) : BState → List (List Char) → List LineClass
  | _, [] => []
  | st, raw :: rest =>
    match classifyLine ext detect st raw with
    | (cls, st') => cls :: lineClasses ext detect st' rest

example :
    analyzeTextLines [['/', '/', ' ', 'a'], [], ['c', 'o', 'd', 'e', '(', ')', ';']]
      "ts" true = ⟨3, 2, 1⟩ := by decide

example :
    lineClasses "ts" true ⟨false, none⟩ [['/', '*'], ['x'], ['*', '/'], ['y']] =
      [.commentOnly, .commentOnly, .commentOnly, .code] := by decide

/-- The loop of `analyzeTextLines` only ever increases the two counters,
adds at most one to `nonEmpty` per line, and adds at most as much to
`commentOnly` as to `nonEmpty`. -/
theorem analyzeLoop_bounds (ext : String) (detect : Bool) (lines : List (List Char)) :
    ∀ (ne co : Nat) (st : BState),
      ne ≤ (analyzeLoop ext detect lines ne co st).1 ∧
      co ≤ (analyzeLoop ext detect lines ne co st).2 ∧
      (analyzeLoop ext detect lines ne co st).1 ≤ ne + lines.length ∧
      (analyzeLoop ext detect lines ne co st).2 + ne ≤
        co + (analyzeLoop ext detect lines ne co st).1 := by
  induction lines with
  | nil => intro ne co st; simp [analyzeLoop]
  | cons raw rest ih =>
    intro ne co st
    rcases hcl : classifyLine ext detect st raw with ⟨cls, st'⟩
    have hrec := ih (ne + (if cls = .blank then 0 else 1))
      (co + (if cls = .commentOnly then 1 else 0)) st'
    simp only [analyzeLoop, hcl, List.length_cons]
    cases cls <;> simp only [reduceCtorEq, if_true, if_false, reduceIte] at hrec ⊢ <;> omega

/-- C1: for every analyzed file — every line sequence, every extension, and
whether or not comment detection is enabled — the three counters produced by
`analyzeTextLines` satisfy `0 ≤ commentOnlyLines ≤ nonEmptyLines ≤ totalLines`. -/
theorem C1_counters_ordered (lines : List (List Char)) (ext : String) (detect : Bool) :
    0 ≤ (analyzeTextLines lines ext detect).commentOnly ∧
    (analyzeTextLines lines ext detect).commentOnly ≤
      (analyzeTextLines lines ext detect).nonEmpty ∧
    (analyzeTextLines lines ext detect).nonEmpty ≤
      (analyzeTextLines lines ext detect).total := by
  have h := analyzeLoop_bounds ext detect lines 0 0 ⟨false, none⟩
  simp only [analyzeTextLines]
  omega

/-- C2: inside a block comment, on a non-blank line: with the terminator
(`*/` for `c`, `-->` for `html`) absent the line is comment-only and block
state persists; with the terminator present and only whitespace after it the
line is comment-only and block state closes; with non-whitespace after it the
line is not comment-only and block state closes — the result is
`(.code, ⟨false, none⟩)` whatever the remainder contains, so the remainder is
never re-scanned for a new comment start. -/
theorem C2_inside_block (ext : String) (raw : List Char)
    (hnb : trimC (tabExpand raw) ≠ []) :
    (indexOfSub ['*', '/'] (trimC (tabExpand raw)) = none →
      classifyLine ext true ⟨true, some .c⟩ raw = (.commentOnly, ⟨true, some .c⟩)) ∧
    (∀ e, indexOfSub ['*', '/'] (trimC (tabExpand raw)) = some e →
      (trimC ((trimC (tabExpand raw)).drop (e + 2)) = [] →
        classifyLine ext true ⟨true, some .c⟩ raw = (.commentOnly, ⟨false, none⟩)) ∧
      (trimC ((trimC (tabExpand raw)).drop (e + 2)) ≠ [] →
        classifyLine ext true ⟨true, some .c⟩ raw = (.code, ⟨false, none⟩))) ∧
    (indexOfSub ['-', '-', '>'] (trimC (tabExpand raw)) = none →
      classifyLine ext true ⟨true, some .html⟩ raw = (.commentOnly, ⟨true, some .html⟩)) ∧
    (∀ e, indexOfSub ['-', '-', '>'] (trimC (tabExpand raw)) = some e →
      (trimC ((trimC (tabExpand raw)).drop (e + 3)) = [] →
        classifyLine ext true ⟨true, some .html⟩ raw = (.commentOnly, ⟨false, none⟩)) ∧
      (trimC ((trimC (tabExpand raw)).drop (e + 3)) ≠ [] →
        classifyLine ext true ⟨true, some .html⟩ raw = (.code, ⟨false, none⟩))) := by
  refine ⟨fun h => ?_, fun e he => ⟨fun ha => ?_, fun ha => ?_⟩,
    fun h => ?_, fun e he => ⟨fun ha => ?_, fun ha => ?_⟩⟩ <;>
    simp [classifyLine, hnb, *]

/-- Witness for C2 at a concrete input: inside a `c` block, the line `*/ x`
closes the block and is not comment-only. -/
theorem C2_inside_block_witness :
    classifyLine "ts" true ⟨true, some .c⟩ ['*', '/', ' ', 'x'] = (.code, ⟨false, none⟩) :=
  ((C2_inside_block "ts" ['*', '/', ' ', 'x'] (by decide)).2.1 0 (by decide)).2 (by decide)

/-- A first occurrence at index 0 means the pattern is a prefix. -/
theorem indexOfSub_zero (pat l : List Char) (h : indexOfSub pat l = some 0) :
    List.isPrefixOf pat l = true := by
  cases l with
  | nil =>
    by_cases hp : List.isPrefixOf pat ([] : List Char) <;> simp [indexOfSub, hp] at h ⊢
  | cons ch t =>
    by_cases hp : List.isPrefixOf pat (ch :: t)
    · exact hp
    · simp only [indexOfSub, hp, if_false, reduceIte] at h
      cases hx : indexOfSub pat t <;> rw [hx] at h <;> simp at h

/-- A two-character prefix exposes the first two characters of the list. -/
theorem isPrefixOf_two (a b : Char) (l : List Char)
    (h : List.isPrefixOf [a, b] l = true) : ∃ t, l = a :: b :: t := by
  cases l with
  | nil => simp [List.isPrefixOf] at h
  | cons x t =>
    cases t with
    | nil => simp [List.isPrefixOf] at h
    | cons y t2 =>
      simp [List.isPrefixOf] at h
      exact ⟨t2, by rw [h.1, h.2]⟩

/-- C3: not inside a block comment, c-style file, non-blank trimmed line:
a line starting with `//` is comment-only; `/*` at position 0 with no `*/`
later (searched from position 2) is comment-only and opens block state;
`/*` at position 0 with `*/` later is comment-only iff only whitespace
follows the closing token, and block state does not open; a line not starting
with `//` where `/*` first occurs at a position other than 0 is not
comment-only. -/
theorem C3_not_inside (ext : String) (raw : List Char)
    (hC : isCStyle ext = true) (hnb : trimC (tabExpand raw) ≠ []) :
    (List.isPrefixOf ['/', '/'] (trimC (tabExpand raw)) = true →
      classifyLine ext true ⟨false, none⟩ raw = (.commentOnly, ⟨false, none⟩)) ∧
    (indexOfSub ['/', '*'] (trimC (tabExpand raw)) = some 0 →
      indexOfSubFrom ['*', '/'] (trimC (tabExpand raw)) 2 = none →
      classifyLine ext true ⟨false, none⟩ raw = (.commentOnly, ⟨true, some .c⟩)) ∧
    (∀ e, indexOfSub ['/', '*'] (trimC (tabExpand raw)) = some 0 →
      indexOfSubFrom ['*', '/'] (trimC (tabExpand raw)) 2 = some e →
      (trimC ((trimC (tabExpand raw)).drop (e + 2)) = [] →
        classifyLine ext true ⟨false, none⟩ raw = (.commentOnly, ⟨false, none⟩)) ∧
      (trimC ((trimC (tabExpand raw)).drop (e + 2)) ≠ [] →
        classifyLine ext true ⟨false, none⟩ raw = (.code, ⟨false, none⟩))) ∧
    (∀ k, List.isPrefixOf ['/', '/'] (trimC (tabExpand raw)) = false →
      indexOfSub ['/', '*'] (trimC (tabExpand raw)) = some k → k ≠ 0 →
      classifyLine ext true ⟨false, none⟩ raw = (.code, ⟨false, none⟩)) := by
  have hpre : ∀ _h : indexOfSub ['/', '*'] (trimC (tabExpand raw)) = some 0,
      List.isPrefixOf ['/', '/'] (trimC (tabExpand raw)) = false := by
    intro h
    obtain ⟨t, ht⟩ := isPrefixOf_two '/' '*' _ (indexOfSub_zero _ _ h)
    rw [ht]
    simp [List.isPrefixOf]
  refine ⟨fun h => ?_, fun hs he => ?_, fun e hs he => ⟨fun ha => ?_, fun ha => ?_⟩,
    fun k hss hs hk => ?_⟩
  · simp [classifyLine, classifyRest, hnb, hC, h]
  · simp [classifyLine, classifyRest, hnb, hC, hpre hs, hs, he]
  · simp [classifyLine, classifyRest, hnb, hC, hpre hs, hs, he, ha]
  · simp [classifyLine, classifyRest, hnb, hC, hpre hs, hs, he, ha]
  · simp [classifyLine, classifyRest, hnb, hC, hss, hs, hk]

/-- Witness for C3: the line `// h` in a `ts` file is comment-only. -/
theorem C3_not_inside_witness :
    classifyLine "ts" true ⟨false, none⟩ ['/', '/', ' ', 'h'] = (.commentOnly, ⟨false, none⟩) :=
  (C3_not_inside "ts" ['/', '/', ' ', 'h'] (by decide) (by decide)).1 (by decide)

/-- A successful search for a non-empty pattern means the line is non-empty. -/
theorem indexOfSub_some_ne_nil (a : Char) (p l : List Char) (k : Nat)
    (h : indexOfSub (a :: p) l = some k) : l ≠ [] := by
  intro h0
  rw [h0] at h
  simp [indexOfSub, List.isPrefixOf] at h

/-- C9: for a c-style file, not inside a block comment, a line not starting
with `//` whose first `/*` occurs at a position other than 0 — even with no
`*/` after it on the line — does not open block state: it is classified as
code, the state stays `⟨false, none⟩`, and every subsequent line is
classified exactly as it would be from the initial (not-inside-block) state. -/
theorem C9_block_not_opened (ext : String) (raw : List Char) (rest : List (List Char))
    (k : Nat) (hC : isCStyle ext = true)
    (hss : List.isPrefixOf ['/', '/'] (trimC (tabExpand raw)) = false)
    (hs : indexOfSub ['/', '*'] (trimC (tabExpand raw)) = some k) (hk : k ≠ 0)
    (_he : indexOfSubFrom ['*', '/'] (trimC (tabExpand raw)) (k + 2) = none) :
    classifyLine ext true ⟨false, none⟩ raw = (.code, ⟨false, none⟩) ∧
    lineClasses ext true ⟨false, none⟩ (raw :: rest) =
      .code :: lineClasses ext true ⟨false, none⟩ rest := by
  have hnb : trimC (tabExpand raw) ≠ [] := indexOfSub_some_ne_nil '/' ['*'] _ k hs
  have h1 : classifyLine ext true ⟨false, none⟩ raw = (.code, ⟨false, none⟩) := by
    simp [classifyLine, classifyRest, hnb, hC, hss, hs, hk]
  exact ⟨h1, by simp [lineClasses, h1]⟩

/-- Witness for C9: `x(); /* open` is code and leaves the state unchanged. -/
theorem C9_block_not_opened_witness :
    classifyLine "ts" true ⟨false, none⟩ ['x', ';', ' ', '/', '*'] = (.code, ⟨false, none⟩) :=
  (C9_block_not_opened "ts" ['x', ';', ' ', '/', '*'] [] 3 (by decide) (by decide)
    (by decide) (by decide) (by decide)).1

/-- Inside a `c` block comment with no terminator on the line, a line is
blank if its trimmed form is empty and comment-only otherwise; the state
persists either way. -/
theorem classifyLine_inBlock_noEnd (ext : String) (l : List Char)
    (h : indexOfSub ['*', '/'] (trimC (tabExpand l)) = none) :
    classifyLine ext true ⟨true, some .c⟩ l =
      (if trimC (tabExpand l) = [] then (.blank, ⟨true, some .c⟩)
       else (.commentOnly, ⟨true, some .c⟩)) := by
  by_cases hb : trimC (tabExpand l) = [] <;> simp [classifyLine, hb, h]

/-- A run of lines inside a `c` block comment with no terminator anywhere is
classified blank-or-comment-only line by line. -/
theorem lineClasses_inBlock (ext : String) (rest : List (List Char))
    (h2 : ∀ l ∈ rest, indexOfSub ['*', '/'] (trimC (tabExpand l)) = none) :
    lineClasses ext true ⟨true, some .c⟩ rest =
      rest.map (fun l => if trimC (tabExpand l) = [] then LineClass.blank
        else LineClass.commentOnly) := by
  induction rest with
  | nil => rfl
  | cons l rest ih =>
    have hl := classifyLine_inBlock_noEnd ext l (h2 l (List.mem_cons_self l rest))
    have hrest := ih (fun x hx => h2 x (List.mem_cons_of_mem l hx))
    by_cases hb : trimC (tabExpand l) = [] <;>
      simp only [hb, if_true, if_false, reduceIte] at hl <;>
      simp [lineClasses, hl, hrest, hb]

/-- C8 as stated is false: in the two-line `ts` file `/*` followed by an empty
line, the block comment opens at line 1 and is unterminated to end of file,
yet the second line is classified blank, not comment-only — blank lines never
count toward `commentOnlyLines`. -/
theorem C8_counterexample :
    indexOfSub ['/', '*'] (trimC (tabExpand ['/', '*'])) = some 0 ∧
    indexOfSubFrom ['*', '/'] (trimC (tabExpand ['/', '*'])) 2 = none ∧
    (∀ l ∈ [([] : List Char)], indexOfSub ['*', '/'] (trimC (tabExpand l)) = none) ∧
    lineClasses "ts" true ⟨false, none⟩ [['/', '*'], []] =
      [.commentOnly, .blank] ∧
    ¬ (∀ cls ∈ lineClasses "ts" true ⟨false, none⟩ [['/', '*'], []],
        cls = LineClass.commentOnly) ∧
    (analyzeTextLines [['/', '*'], []] "ts" true).commentOnly = 1 := by
  decide

/-- C8 amended: in a c-style file, when the classifier is not inside a block
comment and a line opens a block comment (`/*` first occurring at position 0
of the trimmed line, no `*/` from position 2 on) that is never terminated
(`*/` occurs on no later line), that line and every subsequent *non-blank*
line are classified comment-only; blank lines among them stay blank. -/
theorem C8_unterminated_block (ext : String) (openL : List Char) (rest : List (List Char))
    (hC : isCStyle ext = true)
    (h0 : indexOfSub ['/', '*'] (trimC (tabExpand openL)) = some 0)
    (h1 : indexOfSubFrom ['*', '/'] (trimC (tabExpand openL)) 2 = none)
    (h2 : ∀ l ∈ rest, indexOfSub ['*', '/'] (trimC (tabExpand l)) = none) :
    lineClasses ext true ⟨false, none⟩ (openL :: rest) =
      .commentOnly :: rest.map (fun l => if trimC (tabExpand l) = [] then LineClass.blank
        else LineClass.commentOnly) := by
  have hnb : trimC (tabExpand openL) ≠ [] := indexOfSub_some_ne_nil '/' ['*'] _ 0 h0
  have hpre : List.isPrefixOf ['/', '/'] (trimC (tabExpand openL)) = false := by
    obtain ⟨t, ht⟩ := isPrefixOf_two '/' '*' _ (indexOfSub_zero _ _ h0)
    rw [ht]
    simp [List.isPrefixOf]
  have hopen : classifyLine ext true ⟨false, none⟩ openL = (.commentOnly, ⟨true, some .c⟩) := by
    simp [classifyLine, classifyRest, hnb, hC, hpre, h0, h1]
  simp [lineClasses, hopen, lineClasses_inBlock ext rest h2]

/-- Witness for the amended C8: `/*` then `x` — both lines comment-only. -/
theorem C8_unterminated_block_witness :
    lineClasses "ts" true ⟨false, none⟩ [['/', '*'], ['x']] =
      [.commentOnly, .commentOnly] :=
  (C8_unterminated_block "ts" ['/', '*'] [['x']] (by decide) (by decide) (by decide)
    (by decide)).trans (by decide)

/-- JS `content.split(/\r\n|\n|\r/)` (loc-counter.ts line 296): at each
position the alternatives are tried left to right, so `\r\n` is consumed as
one delimiter; splitting the empty string yields one empty piece. -/
def splitLines : List Char → List (List Char)
  | [] => [[]]
  | '\r' :: '\n' :: rest => [] :: splitLines rest
  | '\n' :: rest => [] :: splitLines rest
  | '\r' :: rest => [] :: splitLines rest
  | ch :: rest =>
    match splitLines rest with
    | [] => [[ch]]
    | l :: ls => (ch :: l) :: ls

example : splitLines ['a', '\r', '\n', 'b', '\r', 'c', '\n'] =
    [['a'], ['b'], ['c'], []] := by decide

/-- The index of the last `'.'` in a list of characters, if any. -/
def lastDotIdx : List Char → Option Nat
  | [] => none
  | ch :: t =>
    match lastDotIdx t with
    | some i => some (i + 1)
    | none => if ch = '.' then some 0 else none

/-- Node's `path.extname` on a basename (no slashes): the substring from the
last `'.'` to the end, except that a name with no dot, a name whose only
dot-run starts at position 0 with nothing before it, and the special name
`".."` have no extension. -/
def extnameChars (l : List Char) : List Char :=
  if l = ['.', '.'] then []
  else
    match lastDotIdx l with
    | none => []
    | some 0 => []
    | some i => l.drop i

/-- `path.extname(name).toLowerCase().replace(/^\./, '')` as used at
loc-counter.ts lines 168 and 295. -/
def fileExt (n : String) : String :=
  match (extnameChars n.data).map Char.toLower with
  | '.' :: t => String.mk t
  | t => String.mk t

example : fileExt "index.TS" = "ts" := by decide
example : fileExt "Makefile" = "" := by decide
example : fileExt ".gitignore" = "" := by decide
example : fileExt "a.b.HTML" = "html" := by decide

/-- The `|| 'unknown'` fallback of loc-counter.ts line 295. -/
def extOrUnknown (n : String) : String :=
  if fileExt n = "" then "unknown" else fileExt n

/-- The last segment of a path (the filename `path.extname` looks at). -/
def baseName (p : List String) : String := (p.getLast?).getD ""

/-- `FileStat` (loc-counter.ts lines 50-56); paths are lists of segments. -/
structure FileStat where
  file : List String
  ext : String
  totalLines : Nat
  nonEmptyLines : Nat
  commentOnlyLines : Nat
deriving DecidableEq, Repr

/-- `analyzeFile` (loc-counter.ts lines 288-305): `none` content models a
failed read (`fs.readFile` throwing), which yields no record. -/
def analyzeFile (f : List String × Option (List Char)) (detect : Bool) :
    Option FileStat :=
  match f.2 with
  | none => none
  | some content =>
    let ext := extOrUnknown (baseName f.1)
    let c := analyzeTextLines (splitLines content) ext detect
    some ⟨f.1, ext, c.total, c.nonEmpty, c.commentOnly⟩

/-- C10: a readable file whose content is the empty string produces
`totalLines = 1`, `nonEmptyLines = 0`, `commentOnlyLines = 0`: splitting the
empty content yields the single empty line. -/
theorem C10_empty_content (p : List String) (detect : Bool) :
    analyzeFile (p, some []) detect =
      some ⟨p, extOrUnknown (baseName p), 1, 0, 0⟩ := by
  simp [analyzeFile, analyzeTextLines, splitLines, analyzeLoop, classifyLine,
    tabExpand, trimC]

/-- The comparison `(a, b) => b.totalLines - a.totalLines` (loc-counter.ts
line 346) keeps `a` before `b` exactly when `b.totalLines ≤ a.totalLines`. -/
def statGE (a b : FileStat) : Prop := b.totalLines ≤ a.totalLines

instance : DecidableRel statGE := fun a b => Nat.decLe b.totalLines a.totalLines

instance : IsTotal FileStat statGE := ⟨fun a b => Nat.le_total b.totalLines a.totalLines⟩

instance : IsTrans FileStat statGE := ⟨fun _ _ _ h1 h2 => Nat.le_trans h2 h1⟩

/-- `[...fileStats].sort((a, b) => b.totalLines - a.totalLines)`: JS
`Array.prototype.sort` is a stable sort, modelled by insertion sort under
`statGE`. -/
def sortByLinesDesc (fs : List FileStat) : List FileStat :=
  List.insertionSort statGE fs

/-- `.slice(0, options.top)` after sorting (loc-counter.ts line 346). -/
def largestFiles (fs : List FileStat) (top : Nat) : List FileStat :=
  (sortByLinesDesc fs).take top

/-- Inserting one record leaves each equal-line-count fibre unchanged except
for prepending the new record to its own fibre. -/
theorem filter_orderedInsert (v : Nat) (a : FileStat) (l : List FileStat) :
    (List.orderedInsert statGE a l).filter (fun s => s.totalLines == v) =
      if a.totalLines = v then a :: l.filter (fun s => s.totalLines == v)
      else l.filter (fun s => s.totalLines == v) := by
  induction l with
  | nil => by_cases h : a.totalLines = v <;> simp [List.orderedInsert, h]
  | cons b t ih =>
    by_cases hab : statGE a b
    · rw [List.orderedInsert_of_le _ _ hab]
      by_cases h : a.totalLines = v <;>
        simp [List.filter_cons, beq_iff_eq, h]
    · have hrw : List.orderedInsert statGE a (b :: t) =
          b :: List.orderedInsert statGE a t := by
        simp [List.orderedInsert, hab]
      rw [hrw]
      by_cases h : a.totalLines = v
      · have hbv : ¬ (b.totalLines = v) := by
          simp only [statGE, not_le] at hab
          omega
        simp [List.filter_cons, beq_iff_eq, hbv, ih, h]
      · simp [List.filter_cons, beq_iff_eq, ih, h]

/-- Stability of the modelled sort: each equal-line-count fibre of the sorted
list is the corresponding fibre of the input, in input order. -/
theorem filter_sortByLinesDesc (v : Nat) (l : List FileStat) :
    (sortByLinesDesc l).filter (fun s => s.totalLines == v) =
      l.filter (fun s => s.totalLines == v) := by
  induction l with
  | nil => rfl
  | cons a t ih =>
    by_cases h : a.totalLines = v <;>
      simp only [sortByLinesDesc, List.insertionSort, filter_orderedInsert, h,
        if_true, if_false, reduceIte, List.filter_cons, beq_iff_eq] <;>
      simp only [sortByLinesDesc] at ih <;> rw [ih]

/-- C5: the largest-files list is the stable descending sort of the records
truncated to the first `top`: the sort is a permutation, descending in
`totalLines`, ties keep discovery order (every equal-count fibre is preserved
verbatim); `top = 0` yields `[]`, and `top ≥` the number of records yields
the whole sorted list. -/
theorem C5_largest_files (fs : List FileStat) (top : Nat) :
    largestFiles fs top = (sortByLinesDesc fs).take top ∧
    (sortByLinesDesc fs).Perm fs ∧
    (sortByLinesDesc fs).Pairwise (fun a b => b.totalLines ≤ a.totalLines) ∧
    (∀ v, (sortByLinesDesc fs).filter (fun s => s.totalLines == v) =
      fs.filter (fun s => s.totalLines == v)) ∧
    largestFiles fs 0 = [] ∧
    (fs.length ≤ top → largestFiles fs top = sortByLinesDesc fs) := by
  refine ⟨rfl, List.perm_insertionSort _ _, List.sorted_insertionSort statGE fs,
    fun v => filter_sortByLinesDesc v fs, by simp [largestFiles], fun h => ?_⟩
  have hlen : (sortByLinesDesc fs).length = fs.length :=
    (List.perm_insertionSort statGE fs).length_eq
  rw [largestFiles, List.take_of_length_le (by omega)]

/-- Witness for C5 at a concrete input with a tie: `top` larger than the list
returns everything, sorted descending with the tie in discovery order. -/
theorem C5_largest_files_witness :
    largestFiles [⟨["a"], "ts", 2, 1, 0⟩, ⟨["b"], "ts", 5, 4, 0⟩,
        ⟨["c"], "ts", 2, 2, 0⟩] 5 =
      sortByLinesDesc [⟨["a"], "ts", 2, 1, 0⟩, ⟨["b"], "ts", 5, 4, 0⟩,
        ⟨["c"], "ts", 2, 2, 0⟩] ∧
    sortByLinesDesc [⟨["a"], "ts", 2, 1, 0⟩, ⟨["b"], "ts", 5, 4, 0⟩,
        ⟨["c"], "ts", 2, 2, 0⟩] =
      [⟨["b"], "ts", 5, 4, 0⟩, ⟨["a"], "ts", 2, 1, 0⟩, ⟨["c"], "ts", 2, 2, 0⟩] :=
  ⟨(C5_largest_files [⟨["a"], "ts", 2, 1, 0⟩, ⟨["b"], "ts", 5, 4, 0⟩,
      ⟨["c"], "ts", 2, 2, 0⟩] 5).2.2.2.2.2 (by decide), by decide⟩

/-- One per-extension accumulator (loc-counter.ts line 325). -/
structure ExtSumm where
  files : Nat
  totalLines : Nat
  nonEmpty : Nat
  comments : Nat
deriving DecidableEq, Repr

/-- `{ files: 0, totalLines: 0, nonEmpty: 0, comments: 0 }` (line 332). -/
def zeroSumm : ExtSumm := ⟨0, 0, 0, 0⟩

/-- The four `+=` updates of loc-counter.ts lines 333-336. -/
def addStat (v : ExtSumm) (s : FileStat) : ExtSumm :=
  ⟨v.files + 1, v.totalLines + s.totalLines, v.nonEmpty + s.nonEmptyLines,
    v.comments + s.commentOnlyLines⟩

/-- `perExt.set(s.ext, cur)` on the association-list model of a JS `Map`:
an existing key keeps its position, a new key is appended at the end. -/
def updatePerExt (m : List (String × ExtSumm)) (s : FileStat) :
    List (String × ExtSumm) :=
  match m with
  | [] => [(s.ext, addStat zeroSumm s)]
  | (k, v) :: t =>
    if k = s.ext then (k, addStat v s) :: t else (k, v) :: updatePerExt t s

/-- The `perExt` map after folding in all records (loc-counter.ts
lines 328-338). -/
def perExtOf (stats : List FileStat) : List (String × ExtSumm) :=
  stats.foldl updatePerExt []

/-- `Map.get` on the association-list model. -/
def lookupExt (k : String) : List (String × ExtSumm) → Option ExtSumm
  | [] => none
  | (k', v) :: t => if k' = k then some v else lookupExt k t

theorem lookupExt_updatePerExt (m : List (String × ExtSumm)) (s : FileStat)
    (k : String) :
    lookupExt k (updatePerExt m s) =
      if k = s.ext then some (addStat ((lookupExt k m).getD zeroSumm) s)
      else lookupExt k m := by
  induction m with
  | nil =>
    by_cases h : k = s.ext <;>
      simp [updatePerExt, lookupExt, h, eq_comm]
  | cons p t ih =>
    obtain ⟨k', v⟩ := p
    by_cases h1 : k' = s.ext <;> by_cases h2 : k' = k
    · have hk : k = s.ext := h2.symm.trans h1
      simp [updatePerExt, lookupExt, h1, h2, hk]
    · have hk : ¬ k = s.ext := by
        rw [← h1]
        exact fun hh => h2 hh.symm
      have hk2 : ¬ s.ext = k := fun hh => hk hh.symm
      simp [updatePerExt, lookupExt, h1, h2, hk, hk2]
    · have hk : ¬ k = s.ext := by
        rw [← h2]
        exact h1
      simp [updatePerExt, lookupExt, h1, h2, hk]
    · simp [updatePerExt, lookupExt, h1, h2, ih]

/-- The keys after an update: unchanged when the extension was present,
appended at the end when new. -/
theorem keys_updatePerExt (m : List (String × ExtSumm)) (s : FileStat) :
    (updatePerExt m s).map Prod.fst =
      if s.ext ∈ m.map Prod.fst then m.map Prod.fst
      else m.map Prod.fst ++ [s.ext] := by
  induction m with
  | nil => simp [updatePerExt]
  | cons p t ih =>
    obtain ⟨k', v⟩ := p
    by_cases h1 : k' = s.ext
    · simp [updatePerExt, h1]
    · have h1' : s.ext ≠ k' := fun hh => h1 hh.symm
      by_cases h2 : s.ext ∈ t.map Prod.fst <;>
        simp [updatePerExt, h1, h1', h2, ih]

theorem keysNodup_updatePerExt (m : List (String × ExtSumm)) (s : FileStat)
    (h : (m.map Prod.fst).Nodup) : ((updatePerExt m s).map Prod.fst).Nodup := by
  rw [keys_updatePerExt]
  by_cases hmem : s.ext ∈ m.map Prod.fst
  · simpa [hmem] using h
  · rw [if_neg hmem]
    exact List.Nodup.append h (List.nodup_singleton s.ext)
      (fun x hx hx2 => hmem (by rwa [List.mem_singleton.mp hx2] at hx))

theorem keysNodup_perExt_fold (stats : List FileStat) :
    ∀ m : List (String × ExtSumm), (m.map Prod.fst).Nodup →
      ((stats.foldl updatePerExt m).map Prod.fst).Nodup := by
  induction stats with
  | nil => intro m h; simpa using h
  | cons s rest ih =>
    intro m h
    exact ih (updatePerExt m s) (keysNodup_updatePerExt m s h)

/-- In an association list with distinct keys, membership determines the
lookup. -/
theorem lookupExt_of_mem (k : String) (v : ExtSumm) :
    ∀ m : List (String × ExtSumm), (m.map Prod.fst).Nodup → (k, v) ∈ m →
      lookupExt k m = some v := by
  intro m
  induction m with
  | nil => intro _ h; simp at h
  | cons p t ih =>
    intro hnd h
    obtain ⟨k', v'⟩ := p
    rw [List.map_cons, List.nodup_cons] at hnd
    rcases List.mem_cons.mp h with h0 | h0
    · injection h0 with e1 e2
      subst e1
      subst e2
      simp [lookupExt]
    · have hk : ¬ (k' = k) := fun e => hnd.1 (by
        rw [e]
        exact List.mem_map.mpr ⟨(k, v), h0, rfl⟩)
      simp [lookupExt, hk, ih hnd.2 h0]

/-- Lookup after folding records into the map: the value at `k` accumulates
exactly the records whose extension is `k`. -/
theorem lookupExt_perExt_fold (stats : List FileStat) :
    ∀ (m : List (String × ExtSumm)) (k : String),
      lookupExt k (stats.foldl updatePerExt m) =
        match lookupExt k m with
        | some v => some ((stats.filter (fun s => s.ext == k)).foldl addStat v)
        | none =>
          if (stats.filter (fun s => s.ext == k)) = [] then none
          else some ((stats.filter (fun s => s.ext == k)).foldl addStat zeroSumm) := by
  induction stats with
  | nil =>
    intro m k
    cases h : lookupExt k m <;> simp [h]
  | cons s rest ih =>
    intro m k
    rw [List.foldl_cons, ih (updatePerExt m s) k, lookupExt_updatePerExt]
    by_cases hk : k = s.ext
    · rw [if_pos hk, List.filter_cons_of_pos (by simp [hk.symm])]
      cases hme : lookupExt k m <;> simp [List.foldl_cons]
    · rw [if_neg hk, List.filter_cons_of_neg (by simp; exact fun e => hk e.symm)]

theorem lookupExt_perExtOf (stats : List FileStat) (k : String) :
    lookupExt k (perExtOf stats) =
      if (stats.filter (fun s => s.ext == k)) = [] then none
      else some ((stats.filter (fun s => s.ext == k)).foldl addStat zeroSumm) := by
  have h := lookupExt_perExt_fold stats [] k
  simpa [lookupExt, perExtOf] using h

/-- Accumulating records into a summary yields the count and the three sums. -/
theorem foldl_addStat (l : List FileStat) :
    ∀ v : ExtSumm, l.foldl addStat v =
      ⟨v.files + l.length, v.totalLines + (l.map FileStat.totalLines).sum,
       v.nonEmpty + (l.map FileStat.nonEmptyLines).sum,
       v.comments + (l.map FileStat.commentOnlyLines).sum⟩ := by
  induction l with
  | nil => intro v; cases v; simp
  | cons s t ih =>
    intro v
    rw [List.foldl_cons, ih]
    simp only [addStat, List.length_cons, List.map_cons, List.sum_cons,
      ExtSumm.mk.injEq]
    refine ⟨by omega, by omega, by omega, by omega⟩

/-- Each fold step adds one file and the record's three counters to the
entry-wise sums of the map. -/
theorem entrySums_updatePerExt (s : FileStat) :
    ∀ m : List (String × ExtSumm),
      (((updatePerExt m s).map (fun p => p.2.files)).sum =
        (m.map (fun p => p.2.files)).sum + 1) ∧
      (((updatePerExt m s).map (fun p => p.2.totalLines)).sum =
        (m.map (fun p => p.2.totalLines)).sum + s.totalLines) ∧
      (((updatePerExt m s).map (fun p => p.2.nonEmpty)).sum =
        (m.map (fun p => p.2.nonEmpty)).sum + s.nonEmptyLines) ∧
      (((updatePerExt m s).map (fun p => p.2.comments)).sum =
        (m.map (fun p => p.2.comments)).sum + s.commentOnlyLines) := by
  intro m
  induction m with
  | nil => simp [updatePerExt, addStat, zeroSumm]
  | cons p t ih =>
    obtain ⟨k', v⟩ := p
    by_cases h : k' = s.ext <;>
      simp [updatePerExt, h, addStat] <;> omega

theorem entrySums_perExt_fold (stats : List FileStat) :
    ∀ m : List (String × ExtSumm),
      (((stats.foldl updatePerExt m).map (fun p => p.2.files)).sum =
        (m.map (fun p => p.2.files)).sum + stats.length) ∧
      (((stats.foldl updatePerExt m).map (fun p => p.2.totalLines)).sum =
        (m.map (fun p => p.2.totalLines)).sum + (stats.map FileStat.totalLines).sum) ∧
      (((stats.foldl updatePerExt m).map (fun p => p.2.nonEmpty)).sum =
        (m.map (fun p => p.2.nonEmpty)).sum + (stats.map FileStat.nonEmptyLines).sum) ∧
      (((stats.foldl updatePerExt m).map (fun p => p.2.comments)).sum =
        (m.map (fun p => p.2.comments)).sum + (stats.map FileStat.commentOnlyLines).sum) := by
  induction stats with
  | nil => intro m; simp
  | cons s rest ih =>
    intro m
    have h1 := entrySums_updatePerExt s m
    have h2 := ih (updatePerExt m s)
    simp only [List.foldl_cons, List.map_cons, List.sum_cons, List.length_cons]
    omega

/-- `Options` (loc-counter.ts lines 41-48; `format` is presentation-only and
omitted). -/
structure Options where
  extensions : List String
  excludeDirs : List String
  countEmpty : Bool
  detectComments : Bool
  top : Nat
deriving DecidableEq, Repr

/-- `DEFAULT_OPTIONS` (loc-counter.ts lines 58-65). -/
def DEFAULT_OPTIONS : Options :=
  ⟨["ts", "tsx", "js", "jsx", "css", "scss", "sass", "less", "html", "vue"],
   ["node_modules", ".git", "dist", "build", ".next", "out", "coverage", "public"],
   false, true, 10⟩

/-- The structured report assembled by `run` (loc-counter.ts lines 340-359). -/
structure Report where
  totalFiles : Nat
  totalLines : Nat
  totalNonEmpty : Nat
  totalComments : Nat
  perExtension : List (String × ExtSumm)
  largest : List FileStat
deriving DecidableEq, Repr

/-- The summary computation of `run` (loc-counter.ts lines 325-346): per-ext
fold, `reduce` totals, stable sort plus `slice` for the largest files. -/
def buildReport (opts : Options) (stats : List FileStat) : Report :=
  ⟨stats.length,
   stats.foldl (fun a b => a + b.totalLines) 0,
   stats.foldl (fun a b => a + b.nonEmptyLines) 0,
   stats.foldl (fun a b => a + b.commentOnlyLines) 0,
   perExtOf stats,
   largestFiles stats opts.top⟩

theorem foldl_add_map (f : FileStat → Nat) (l : List FileStat) :
    ∀ a : Nat, l.foldl (fun acc s => acc + f s) a = a + (l.map f).sum := by
  induction l with
  | nil => intro a; simp
  | cons s t ih =>
    intro a
    rw [List.foldl_cons, ih (a + f s)]
    simp
    omega

/-- C4: every entry of the per-extension map carries exactly the file count
and the three counter sums over the records with that extension; the global
`Report` totals are the sums over all records, which in turn equal the sums
over the per-extension entries. -/
theorem C4_aggregation (stats : List FileStat) :
    (∀ p ∈ perExtOf stats,
      p.2.files = (stats.filter (fun s => s.ext == p.1)).length ∧
      p.2.totalLines =
        ((stats.filter (fun s => s.ext == p.1)).map FileStat.totalLines).sum ∧
      p.2.nonEmpty =
        ((stats.filter (fun s => s.ext == p.1)).map FileStat.nonEmptyLines).sum ∧
      p.2.comments =
        ((stats.filter (fun s => s.ext == p.1)).map FileStat.commentOnlyLines).sum) ∧
    ((perExtOf stats).map (fun p => p.2.files)).sum = stats.length ∧
    ((perExtOf stats).map (fun p => p.2.totalLines)).sum =
      (stats.map FileStat.totalLines).sum ∧
    ((perExtOf stats).map (fun p => p.2.nonEmpty)).sum =
      (stats.map FileStat.nonEmptyLines).sum ∧
    ((perExtOf stats).map (fun p => p.2.comments)).sum =
      (stats.map FileStat.commentOnlyLines).sum ∧
    (∀ opts : Options,
      (buildReport opts stats).totalFiles = stats.length ∧
      (buildReport opts stats).totalLines = (stats.map FileStat.totalLines).sum ∧
      (buildReport opts stats).totalNonEmpty = (stats.map FileStat.nonEmptyLines).sum ∧
      (buildReport opts stats).totalComments = (stats.map FileStat.commentOnlyLines).sum ∧
      (buildReport opts stats).perExtension = perExtOf stats) := by
  obtain ⟨hb, hc, hd, hee⟩ := entrySums_perExt_fold stats []
  refine ⟨?_, by simpa [perExtOf] using hb, by simpa [perExtOf] using hc,
    by simpa [perExtOf] using hd, by simpa [perExtOf] using hee,
    fun opts => ⟨rfl, ?_, ?_, ?_, rfl⟩⟩
  · intro p hp
    obtain ⟨k, v⟩ := p
    have hnd : ((perExtOf stats).map Prod.fst).Nodup :=
      keysNodup_perExt_fold stats [] (by simp)
    have hlk := lookupExt_of_mem k v (perExtOf stats) hnd hp
    rw [lookupExt_perExtOf] at hlk
    by_cases hf : stats.filter (fun s => s.ext == k) = []
    · rw [if_pos hf] at hlk
      exact absurd hlk (by simp)
    · rw [if_neg hf, foldl_addStat _ zeroSumm] at hlk
      injection hlk with hv
      rw [← hv]
      simp [zeroSumm]
  · simpa [buildReport] using foldl_add_map FileStat.totalLines stats 0
  · simpa [buildReport] using foldl_add_map FileStat.nonEmptyLines stats 0
  · simpa [buildReport] using foldl_add_map FileStat.commentOnlyLines stats 0

/-- Witness for C4 on a concrete two-extension run. -/
theorem C4_aggregation_witness :
    ((perExtOf ([⟨["a"], "ts", 3, 2, 1⟩, ⟨["b"], "css", 5, 4, 0⟩,
        ⟨["c"], "ts", 2, 1, 0⟩] : List FileStat)).map (fun p => p.2.totalLines)).sum =
      (([⟨["a"], "ts", 3, 2, 1⟩, ⟨["b"], "css", 5, 4, 0⟩,
        ⟨["c"], "ts", 2, 1, 0⟩] : List FileStat).map FileStat.totalLines).sum ∧
    (("ts", (⟨2, 5, 3, 1⟩ : ExtSumm)) : String × ExtSumm).2.files =
      (([⟨["a"], "ts", 3, 2, 1⟩, ⟨["b"], "css", 5, 4, 0⟩,
        ⟨["c"], "ts", 2, 1, 0⟩] : List FileStat).filter (fun s => s.ext == "ts")).length :=
  ⟨(C4_aggregation [⟨["a"], "ts", 3, 2, 1⟩, ⟨["b"], "css", 5, 4, 0⟩,
      ⟨["c"], "ts", 2, 1, 0⟩]).2.2.1,
   ((C4_aggregation [⟨["a"], "ts", 3, 2, 1⟩, ⟨["b"], "css", 5, 4, 0⟩,
      ⟨["c"], "ts", 2, 1, 0⟩]).1 ("ts", ⟨2, 5, 3, 1⟩) (by decide)).1⟩

/-- A file-system entry as `fs.readdir(dir, { withFileTypes: true })` reports
it: a regular file with readable content (`none` models a read that fails), a
directory with its entries, or anything else (symlink, socket, ...) — which
`walkDir` ignores since it is neither `isDirectory()` nor `isFile()`. -/
inductive FsEntry where
  | file : String → Option (List Char) → FsEntry
  | dir : String → List FsEntry → FsEntry
  | other : String → FsEntry

/-- The file filter of `walkDir` (loc-counter.ts lines 168-170): skip files
with no extension, and when the allow-list is non-empty skip extensions not
in it. -/
def fileOkB (opts : Options) (n : String) : Bool :=
  if fileExt n = "" then false
  else if decide (opts.extensions.length > 0) && !(opts.extensions.contains (fileExt n))
    then false
  else true

/-- `walkDir` (loc-counter.ts lines 153-174) over the tree model: paths are
segment lists, `pre` is the directory the walk is in (`path.join`
accumulates one segment per level).  Excluded directory names are not
descended into; files failing `fileOkB` are not pushed. -/
def walkDir (opts : Options) : List String → List FsEntry →
    List (List String × Option (List Char))
  | _, [] => []
  | pre, FsEntry.dir n es :: rest =>
    (if opts.excludeDirs.contains n then [] else walkDir opts (pre ++ [n]) es) ++
      walkDir opts pre rest
  | pre, FsEntry.file n c :: rest =>
    (if fileOkB opts n then [(pre ++ [n], c)] else []) ++ walkDir opts pre rest
  | pre, FsEntry.other _ :: rest => walkDir opts pre rest

/-- All regular files under a list of entries, with their full paths, in
discovery order, with no filtering at all. -/
def filesUnder : List String → List FsEntry → List (List String × Option (List Char))
  | _, [] => []
  | pre, FsEntry.dir n es :: rest => filesUnder (pre ++ [n]) es ++ filesUnder pre rest
  | pre, FsEntry.file n c :: rest => (pre ++ [n], c) :: filesUnder pre rest
  | pre, FsEntry.other _ :: rest => filesUnder pre rest

/-- The claim's path predicate on a root-relative path: no directory segment
is excluded, and the filename passes the extension filter. -/
def relOk (opts : Options) (q : List String) : Bool :=
  q.dropLast.all (fun d => !(opts.excludeDirs.contains d)) &&
    (match q.getLast? with
     | some n => fileOkB opts n
     | none => false)

/-- Every discovered path extends the directory it was discovered under by at
least one segment. -/
theorem filesUnder_shape (pre : List String) (es : List FsEntry) :
    ∀ x ∈ filesUnder pre es, ∃ q, x.1 = pre ++ q ∧ q ≠ [] := by
  induction pre, es using filesUnder.induct with
  | case1 pre => intro x hx; simp [filesUnder] at hx
  | case2 pre n es rest ih1 ih2 =>
    intro x hx
    rcases List.mem_append.mp (by simpa [filesUnder] using hx) with h | h
    · obtain ⟨q, hq, _⟩ := ih1 x h
      exact ⟨n :: q, by simp [hq], by simp⟩
    · exact ih2 x h
  | case3 pre n c rest ih =>
    intro x hx
    rcases List.mem_cons.mp (by simpa [filesUnder] using hx) with h | h
    · exact ⟨[n], by simp [h], by simp⟩
    · exact ih x h
  | case4 pre n rest ih =>
    intro x hx
    exact ih x (by simpa [filesUnder] using hx)

/-- Prepending a directory segment to a non-trivial relative path: the
segment joins the `dropLast` part and the filename is unchanged. -/
theorem relOk_cons (opts : Options) (n : String) (q : List String) (hq : q ≠ []) :
    relOk opts (n :: q) = ((!(opts.excludeDirs.contains n)) && relOk opts q) := by
  obtain ⟨b, t, rfl⟩ := List.exists_cons_of_ne_nil hq
  simp only [relOk, List.dropLast_cons₂, List.all_cons, List.getLast?_cons_cons,
    Bool.and_assoc]

/-- The traversal filter is equivalent to one predicate on the root-relative
path: `walkDir` keeps exactly the files all of whose directory segments are
unexcluded and whose filename passes the extension filter. -/
theorem walkDir_eq_filter (opts : Options) :
    ∀ (pre : List String) (es : List FsEntry),
      walkDir opts pre es =
        (filesUnder pre es).filter
          (fun pc => relOk opts (pc.1.drop pre.length)) := by
  intro pre es
  induction pre, es using filesUnder.induct with
  | case1 pre => simp [walkDir, filesUnder]
  | case2 pre n es rest ih1 ih2 =>
    rw [walkDir, filesUnder, List.filter_append]
    have hshape := filesUnder_shape (pre ++ [n]) es
    by_cases hex : opts.excludeDirs.contains n
    · rw [if_pos hex]
      have hnil : (filesUnder (pre ++ [n]) es).filter
          (fun pc => relOk opts (pc.1.drop pre.length)) = [] := by
        apply List.filter_eq_nil_iff.mpr
        intro x hx
        obtain ⟨q, hq, hqne⟩ := hshape x hx
        have hd2 : (x.1).drop pre.length = n :: q := by
          rw [hq, List.append_assoc, List.drop_left]
          rfl
        rw [hd2, relOk_cons opts n q hqne, hex]
        simp
      rw [hnil, ih2]
    · rw [if_neg hex, ih1, ih2]
      have hex' : opts.excludeDirs.contains n = false := by
        simpa using hex
      congr 1
      apply List.filter_congr
      intro x hx
      obtain ⟨q, hq, hqne⟩ := hshape x hx
      have hd1 : (x.1).drop (pre ++ [n]).length = q := by
        rw [hq, List.drop_left]
      have hd2 : (x.1).drop pre.length = n :: q := by
        rw [hq, List.append_assoc, List.drop_left]
        rfl
      rw [hd1, hd2, relOk_cons opts n q hqne, hex']
      simp
  | case3 pre n c rest ih =>
    rw [walkDir, filesUnder, List.filter_cons, ih]
    have hdrop : ((pre ++ [n], c).1).drop pre.length = [n] := List.drop_left pre [n]
    by_cases hok : fileOkB opts n
    · simp only [hdrop, relOk]
      simp [hok]
    · simp only [hdrop, relOk]
      simp [hok]
  | case4 pre n rest ih =>
    simp [walkDir, filesUnder, ih]

/-- The file filter in spec terms: non-empty extension, and membership in the
allow-list whenever the allow-list is non-empty. -/
theorem fileOkB_iff (opts : Options) (n : String) :
    fileOkB opts n = true ↔
      (fileExt n ≠ "" ∧ (opts.extensions ≠ [] → fileExt n ∈ opts.extensions)) := by
  unfold fileOkB
  by_cases h1 : fileExt n = ""
  · simp [h1]
  · by_cases h2 : opts.extensions = []
    · simp [h1, h2]
    · have hlen : 0 < opts.extensions.length := List.length_pos.mpr h2
      by_cases h3 : opts.extensions.contains (fileExt n) = true
      · have hmem := List.elem_iff.mp h3
        simp [h1, h2, h3, hlen, hmem]
      · have hnm : ¬ (fileExt n ∈ opts.extensions) := fun hm => h3 (List.elem_iff.mpr hm)
        simp [h1, h2, h3, hlen, hnm]

/-- The path predicate in spec terms, for non-empty relative paths. -/
theorem relOk_iff (opts : Options) (q : List String) (hq : q ≠ []) :
    relOk opts q = true ↔
      ((∀ d ∈ q.dropLast, d ∉ opts.excludeDirs) ∧
       fileOkB opts ((q.getLast?).getD "") = true) := by
  obtain ⟨last, hlast⟩ : ∃ a, q.getLast? = some a := by
    cases hq2 : q.getLast? with
    | none => exact absurd (List.getLast?_eq_none_iff.mp hq2) hq
    | some a => exact ⟨a, rfl⟩
  simp [relOk, hlast, List.all_eq_true, List.elem_iff]

/-- C6: the walker yields exactly the regular files under the root whose
directory chain below the root avoids the excluded names entirely (so an
excluded directory's whole subtree is skipped at any depth), whose filename
has a non-empty extension, and — when the allow-list is non-empty — whose
lowercased extension is in it; an empty allow-list admits every extensioned
file. -/
theorem C6_walker (opts : Options) (es : List FsEntry)
    (pc : List String × Option (List Char)) :
    pc ∈ walkDir opts [] es ↔
      (pc ∈ filesUnder [] es ∧
       (∀ d ∈ pc.1.dropLast, d ∉ opts.excludeDirs) ∧
       fileExt ((pc.1.getLast?).getD "") ≠ "" ∧
       (opts.extensions ≠ [] → fileExt ((pc.1.getLast?).getD "") ∈ opts.extensions)) := by
  rw [walkDir_eq_filter, List.mem_filter]
  constructor
  · rintro ⟨hmem, hp⟩
    obtain ⟨q, hq, hqne⟩ := filesUnder_shape [] es pc hmem
    have hne : pc.1 ≠ [] := by
      rw [hq]
      simpa using hqne
    replace hp : relOk opts pc.1 = true := hp
    rw [relOk_iff opts _ hne, fileOkB_iff] at hp
    exact ⟨hmem, hp.1, hp.2.1, hp.2.2⟩
  · rintro ⟨hmem, hdirs, hext, hmemext⟩
    obtain ⟨q, hq, hqne⟩ := filesUnder_shape [] es pc hmem
    have hne : pc.1 ≠ [] := by
      rw [hq]
      simpa using hqne
    refine ⟨hmem, ?_⟩
    show relOk opts (pc.1.drop 0) = true
    rw [List.drop_zero, relOk_iff opts _ hne, fileOkB_iff]
    exact ⟨hdirs, hext, hmemext⟩

/-- Witness for C6: a file under `src` is collected, and the concrete walk of
a tree with a `node_modules` subtree yields only that file. -/
theorem C6_walker_witness :
    ((["src", "a.ts"], (some [] : Option (List Char))) ∈
      walkDir DEFAULT_OPTIONS []
        [FsEntry.dir "src" [FsEntry.file "a.ts" (some [])],
         FsEntry.dir "node_modules" [FsEntry.file "b.ts" (some [])]] ↔
      ((["src", "a.ts"], (some [] : Option (List Char))) ∈
        filesUnder []
          [FsEntry.dir "src" [FsEntry.file "a.ts" (some [])],
           FsEntry.dir "node_modules" [FsEntry.file "b.ts" (some [])]] ∧
       (∀ d ∈ (["src", "a.ts"] : List String).dropLast,
          d ∉ DEFAULT_OPTIONS.excludeDirs) ∧
       fileExt (((["src", "a.ts"] : List String).getLast?).getD "") ≠ "" ∧
       (DEFAULT_OPTIONS.extensions ≠ [] →
         fileExt (((["src", "a.ts"] : List String).getLast?).getD "") ∈
           DEFAULT_OPTIONS.extensions))) ∧
    walkDir DEFAULT_OPTIONS []
        [FsEntry.dir "src" [FsEntry.file "a.ts" (some [])],
         FsEntry.dir "node_modules" [FsEntry.file "b.ts" (some [])]] =
      [(["src", "a.ts"], some [])] :=
  ⟨C6_walker DEFAULT_OPTIONS
    [FsEntry.dir "src" [FsEntry.file "a.ts" (some [])],
     FsEntry.dir "node_modules" [FsEntry.file "b.ts" (some [])]]
    (["src", "a.ts"], some []),
   by simp +decide [walkDir, fileOkB, DEFAULT_OPTIONS]⟩

/-- The fatal error cases of `run` (loc-counter.ts lines 307-319): the root
path does not resolve (`fs.stat` throws) or is not a directory.  The source
reports these with `console.error` + `process.exit(2)`; the spec calls the
surfaced failure `PathError`. -/
inductive PathError where
  | notFound
  | notDirectory
deriving DecidableEq, Repr

/-- The analyze loop of `run` (loc-counter.ts lines 328-338): each discovered
file is analyzed, and files whose read failed (`analyzeFile` returned `null`)
are dropped (`if (!s) continue`). -/
def collectStats (opts : Options) (files : List (List String × Option (List Char))) :
    List FileStat :=
  files.filterMap (fun f => analyzeFile f opts.detectComments)

/-- `run` (loc-counter.ts lines 307-346) over the modelled file system: the
root is `none` when `fs.stat` fails, otherwise a directory flag and the root
entries.  Validation happens before any traversal; on success the full
report is built from the walk. -/
def run (root : Option (Bool × List FsEntry)) (opts : Options) :
    Except PathError Report :=
  match root with
  | none => .error .notFound
  | some (isDir, es) =>
    if !isDir then .error .notDirectory
    else .ok (buildReport opts (collectStats opts (walkDir opts [] es)))

/-- C7: `run` fails with a `PathError` exactly when the root is missing or
not a directory, and the failure is decided before any traversal (the error
is the same whatever entries the tree holds, and no partial report exists: the
result is either an error or a complete report); a file whose read fails is
dropped by `analyzeFile` and the collected stats equal those of the readable
files alone, so one unreadable file never surfaces an error. -/
theorem C7_error_handling :
    (∀ opts : Options, run none opts = .error .notFound) ∧
    (∀ (opts : Options) (es : List FsEntry),
      run (some (false, es)) opts = .error .notDirectory) ∧
    (∀ (opts : Options) (root : Option (Bool × List FsEntry)),
      (∃ e, run root opts = .error e) ↔
        (root = none ∨ ∃ es, root = some (false, es))) ∧
    (∀ (opts : Options) (es : List FsEntry),
      ∃ rep, run (some (true, es)) opts = .ok rep) ∧
    (∀ (opts : Options) (p : List String),
      analyzeFile (p, none) opts.detectComments = none) ∧
    (∀ (opts : Options) (files : List (List String × Option (List Char))),
      collectStats opts files =
        collectStats opts (files.filter (fun f => f.2.isSome))) := by
  refine ⟨fun _ => rfl, fun _ _ => rfl, ?_, fun opts es => ⟨_, rfl⟩,
    fun _ _ => rfl, ?_⟩
  · intro opts root
    constructor
    · rintro ⟨e, he⟩
      match root with
      | none => exact Or.inl rfl
      | some (true, es) => simp [run] at he
      | some (false, es) => exact Or.inr ⟨es, rfl⟩
    · rintro (rfl | ⟨es, rfl⟩)
      · exact ⟨.notFound, rfl⟩
      · exact ⟨.notDirectory, rfl⟩
  · intro opts files
    induction files with
    | nil => rfl
    | cons f t ih =>
      simp only [collectStats] at ih ⊢
      cases hf : f.2 with
      | none =>
        have haf : analyzeFile f opts.detectComments = none := by
          simp [analyzeFile, hf]
        simp [List.filterMap_cons, List.filter_cons, hf, haf, ih]
      | some c =>
        have haf : ∃ r, analyzeFile f opts.detectComments = some r := by
          simp [analyzeFile, hf]
        obtain ⟨r, hr⟩ := haf
        simp [List.filterMap_cons, List.filter_cons, hf, hr, ih]

/-- Witness for C7 at concrete inputs: a missing root, a non-directory root
over a non-empty tree, and a directory whose single file is unreadable. -/
theorem C7_error_handling_witness :
    run none DEFAULT_OPTIONS = .error .notFound ∧
    run (some (false, [FsEntry.file "a.ts" (some [])])) DEFAULT_OPTIONS =
      .error .notDirectory ∧
    collectStats DEFAULT_OPTIONS [(["a.ts"], none)] =
      collectStats DEFAULT_OPTIONS
        ([(["a.ts"], none)].filter (fun f => f.2.isSome)) :=
  ⟨C7_error_handling.1 DEFAULT_OPTIONS,
   C7_error_handling.2.1 DEFAULT_OPTIONS [FsEntry.file "a.ts" (some [])],
   C7_error_handling.2.2.2.2.2 DEFAULT_OPTIONS [(["a.ts"], none)]⟩

end LocCounter
